import Mathlib

/-!
Verification of the highlight-export core: identifier normalization
(`strip_suffix`, `extract_depth`), TOC construction (`query_toc`), highlight
assignment (`assign_highlights`), the ancestor-closure selection and the
Markdown rendering (`generate_markdown`).  Rust strings are modelled as
`List Char`; the `u32` parse carries its explicit 32-bit bound.
-/

/-- One entry of a book's table of contents, as produced by `query_toc`:
`title`, `match_id` (the ContentID with the trailing dash-digits suffix
stripped) and `depth` (the level encoded by that suffix). -/
structure TocEntry where
  title : List Char
  match_id : List Char
  depth : Nat
deriving DecidableEq

/-- A highlight row from the `Bookmark` table: text, optional annotation, the
chapter ContentID used for matching, and an optional creation date. -/
structure Highlight where
  text : List Char
  annotation : Option (List Char)
  chapter_content_id : List Char
  date_created : Option (List Char)
deriving DecidableEq

/-- A book row: ContentID, title, optional author attribution. -/
structure Book where
  content_id : List Char
  title : List Char
  author : Option (List Char)
deriving DecidableEq

/-- Split a character list at the last occurrence of a dash, returning the
parts before and after it.  This models `content_id.rfind('-')` together with
the slices `content_id[..pos]` and `content_id[pos + 1..]` (the dash is ASCII,
so byte positions and character positions agree). -/
def lastDashSplit : List Char → Option (List Char × List Char)
  | [] => none
  | c :: rest =>
    match lastDashSplit rest with
    | some (b, a) => some (c :: b, a)
    | none => if c = '-' then some ([], rest) else none

/-- Numeric value of a run of ASCII digit characters. -/
def digitsToNat (cs : List Char) : Nat :=
  cs.foldl (fun acc c => acc * 10 + (c.toNat - 48)) 0

/-- Rust `str::parse::<u32>` restricted to the non-empty all-digit strings the
program applies it to: it yields the numeric value when that value fits in 32
unsigned bits and fails (`none`) on overflow. -/
def parseU32 (cs : List Char) : Option Nat :=
  if cs ≠ [] ∧ cs.all Char.isDigit ∧ digitsToNat cs ≤ 4294967295 then
    some (digitsToNat cs)
  else none

/-- `strip_suffix` from the source: if the identifier ends in a dash followed
by one or more ASCII digits, remove that suffix; otherwise return it
unchanged. -/
def strip_suffix (cs : List Char) : List Char :=
  match lastDashSplit cs with
  | some (b, a) => if a ≠ [] ∧ a.all Char.isDigit then b else cs
  | none => cs

/-- `extract_depth` from the source: the numeric value of the trailing
dash-digits suffix via `parse::<u32>().unwrap_or(1)`, and 1 when there is no
such suffix. -/
def extract_depth (cs : List Char) : Nat :=
  match lastDashSplit cs with
  | some (_, a) => if a ≠ [] ∧ a.all Char.isDigit then (parseU32 a).getD 1 else 1
  | none => 1

/-- The per-row mapping inside `query_toc`: one raw `(ContentID, Title)` row
becomes one `TocEntry`. -/
def mkTocEntry (content_id title : List Char) : TocEntry :=
  { title := title, match_id := strip_suffix content_id, depth := extract_depth content_id }

/-- The pure core of `query_toc`: the SQL layer delivers the ordered
`(ContentID, Title)` rows; each row is mapped to a `TocEntry` in order. -/
def query_toc (rows : List (List Char × List Char)) : List TocEntry :=
  rows.map fun r => mkTocEntry r.1 r.2

/-- The identifier ends in a dash-digits suffix whose numeric value is zero
(for example `"...-0"`). -/
def zeroDigitSuffix (cs : List Char) : Bool :=
  match lastDashSplit cs with
  | some (_, a) => !a.isEmpty && a.all Char.isDigit && digitsToNat a == 0
  | none => false

/-- `HashMap::entry(k).or_insert(v)` on a map modelled as a function: the
binding for `k` is created only when absent. -/
def orInsert (m : List Char → Option Nat) (k : List Char) (v : Nat) :
    List Char → Option Nat :=
  fun q => if q = k then some ((m k).getD v) else m q

/-- The `match_index` building loop of `assign_highlights`: every entry's
`match_id` is inserted with its position, keeping the first position per key. -/
def buildFrom : (List Char → Option Nat) → Nat → List TocEntry → List Char → Option Nat
  | m, _, [], k => m k
  | m, i, e :: rest, k => buildFrom (orInsert m e.match_id i) (i + 1) rest k

/-- Lookup in the completed `match_index` map. -/
def matchIndex (toc : List TocEntry) (k : List Char) : Option Nat :=
  buildFrom (fun _ => none) 0 toc k

/-- Position of the first entry, counting from `i`, whose `match_id` is `k`. -/
def firstIdxFrom : List TocEntry → List Char → Nat → Option Nat
  | [], _, _ => none
  | e :: rest, k, i => if e.match_id = k then some i else firstIdxFrom rest k (i + 1)

/-- Position of the first entry whose `match_id` is `k`. -/
def firstIdx (toc : List TocEntry) (k : List Char) : Option Nat :=
  firstIdxFrom toc k 0

/-- The assignment loop of `assign_highlights`, processing highlights in input
order.  The `HashMap<usize, Vec<&Highlight>>` is modelled as a function from
position to bucket; a key is present exactly when its bucket is
non-empty, which matches the source because entries are only ever created by
pushing a highlight. -/
def assignGo (idx : List Char → Option Nat) :
    (Nat → List Highlight) → List Highlight → List Highlight →
    (Nat → List Highlight) × List Highlight
  | a, u, [] => (a, u)
  | a, u, h :: rest =>
    match idx h.chapter_content_id with
    | some i => assignGo idx (fun j => if j = i then a j ++ [h] else a j) u rest
    | none => assignGo idx a (u ++ [h]) rest

/-- `assign_highlights` from the source: build the first-write-wins match
index, then route every highlight either to the bucket of its matching TOC
position or to the uncategorized list. -/
def assign_highlights (toc : List TocEntry) (hs : List Highlight) :
    (Nat → List Highlight) × List Highlight :=
  assignGo (matchIndex toc) (fun _ => []) [] hs

/-- `toc[j].depth` (0 when out of range; every use is in range). -/
def depthAt (toc : List TocEntry) (j : Nat) : Nat :=
  match toc.get? j with
  | some e => e.depth
  | none => 0

/-- The backward ancestor walk of `generate_markdown`: scan positions
`n - 1, n - 2, ..., 0` with threshold `need`; add every position whose depth is
strictly below the threshold, lower the threshold to that depth, and stop as
soon as the depth just added is at most 1. -/
def walkBack (toc : List TocEntry) : Nat → Nat → Finset Nat
  | 0, _ => ∅
  | n + 1, need =>
    if depthAt toc n < need then
      if depthAt toc n ≤ 1 then {n}
      else insert n (walkBack toc n (depthAt toc n))
    else walkBack toc n need

/-- The `heading_needed` set of `generate_markdown`: every position whose
bucket is non-empty, together with the positions found by its backward walk.
The `HashSet` is modelled as a `Finset`, since insertion order is irrelevant
to set contents. -/
def heading_needed (toc : List TocEntry) (hs : List Highlight) : Finset Nat :=
  (Finset.range toc.length).biUnion fun i =>
    if (assign_highlights toc hs).1 i = [] then ∅
    else insert i (walkBack toc i (depthAt toc i))

/-- Modelled from the spec (the ancestor-walk wording, kept separate so it can
be compared with `walkBack`): walk backward tracking the smallest level seen,
add a node whenever its level is strictly smaller than that minimum, and stop
once a level-1 node has been added or the start of the list is reached. -/
def specWalk (toc : List TocEntry) : Nat → Nat → Finset Nat
  | 0, _ => ∅
  | n + 1, need =>
    if depthAt toc n < need then
      if depthAt toc n = 1 then {n}
      else insert n (specWalk toc n (depthAt toc n))
    else specWalk toc n need

/-- Drop one trailing carriage return (the `\r` of an `\r\n` line ending). -/
def stripTrailingCR (l : List Char) : List Char :=
  if l.getLast? = some '\r' then l.dropLast else l

/-- Helper for `rustLines`: split at newline characters, accumulating the
current chunk in reverse. -/
def linesAux : List Char → List Char → List (List Char)
  | acc, [] => [acc.reverse]
  | acc, c :: rest =>
    if c = '\n' then stripTrailingCR acc.reverse :: linesAux [] rest
    else linesAux (c :: acc) rest

/-- Rust `str::lines`: split at `'\n'`, strip a `'\r'` directly preceding each
`'\n'`, and do not yield a final empty line. -/
def rustLines (cs : List Char) : List (List Char) :=
  if (linesAux [] cs).getLast? = some [] then (linesAux [] cs).dropLast
  else linesAux [] cs

/-- `format_highlight` from the source: every line of the text quoted, then
the optional non-empty note, then the optional creation date. -/
def format_highlight (h : Highlight) : List Char :=
  List.flatten ((rustLines h.text).map fun l => "> ".data ++ l ++ "\n".data)
    ++ (match h.annotation with
        | some note => if note ≠ [] then "\n**Note:** ".data ++ note ++ "\n".data else []
        | none => [])
    ++ (match h.date_created with
        | some date => "\n*".data ++ date ++ "*\n".data
        | none => [])

/-- The header emitted by `generate_markdown`: title, optional non-empty
author, separator. -/
def headerPart (book : Book) : List Char :=
  "# ".data ++ book.title ++ "\n\n".data
    ++ (match book.author with
        | some a => if a ≠ [] then "**Author:** ".data ++ a ++ "\n\n".data else []
        | none => [])
    ++ "---\n\n".data

/-- The text emitted for TOC position `i` by the main rendering walk: nothing
unless `i` passes the closure-membership test with a non-empty title;
otherwise a heading of `depth + 1` hash marks — the addition is performed on
`u32`, so it wraps modulo 2^32 at `depth = 4294967295` — followed by the
bucket's highlights, each with a trailing blank line. -/
def entryBlock (toc : List TocEntry) (assigned : Nat → List Highlight)
    (contains : Nat → Bool) (i : Nat) : List Char :=
  match toc.get? i with
  | none => []
  | some e =>
    if contains i = true ∧ e.title ≠ [] then
      List.replicate ((e.depth + 1) % 4294967296) '#'
        ++ ' ' :: (e.title ++ "\n\n".data
          ++ List.flatten ((assigned i).map fun h => format_highlight h ++ "\n".data))
    else []

/-- The trailing Uncategorized section, present only when some highlight
matched no TOC entry. -/
def uncatSection (uncategorized : List Highlight) : List Char :=
  if uncategorized = [] then []
  else "## Uncategorized\n\n".data
    ++ List.flatten (uncategorized.map fun h => format_highlight h ++ "\n".data)

/-- `generate_markdown`, parameterized by the membership test consulted for
the closure set (the source asks a `HashSet`; any test that decides
membership in `heading_needed` yields the same document). -/
def generate_markdown_core (book : Book) (toc : List TocEntry) (hs : List Highlight)
    (contains : Nat → Bool) : List Char :=
  headerPart book
    ++ List.flatten ((List.range toc.length).map
        (entryBlock toc (assign_highlights toc hs).1 contains))
    ++ uncatSection (assign_highlights toc hs).2

/-- The canonical membership test for the closure set. -/
def closureContains (toc : List TocEntry) (hs : List Highlight) : Nat → Bool :=
  fun i => decide (i ∈ heading_needed toc hs)

/-- `generate_markdown` from the source. -/
def generate_markdown (book : Book) (toc : List TocEntry) (hs : List Highlight) :
    List Char :=
  generate_markdown_core book toc hs (closureContains toc hs)

/-- `x` occurs contiguously inside `y`. -/
def occursIn (x y : List Char) : Prop :=
  ∃ s t, y = s ++ x ++ t

/-- Sample TOC entry: a level-1 chapter. -/
def entA : TocEntry := { title := "Chapter".data, match_id := "k1".data, depth := 1 }

/-- Sample TOC entry: a level-2 section. -/
def entB : TocEntry := { title := "Section".data, match_id := "k2".data, depth := 2 }

/-- Sample highlight matching `entB`. -/
def hlA : Highlight :=
  { text := "text".data, annotation := none, chapter_content_id := "k2".data,
    date_created := none }

/-- Sample TOC: a chapter followed by a section. -/
def tocA : List TocEntry := [entA, entB]

/-- Sample highlight list containing only `hlA`. -/
def hsA : List Highlight := [hlA]

/-- Sample book. -/
def bookA : Book := { content_id := "b".data, title := "Book".data, author := none }

example : strip_suffix ("a#b-2".data) = "a#b".data := by decide
example : strip_suffix ("a#b-xyz".data) = "a#b-xyz".data := by decide
example : extract_depth ("a#b-2".data) = 2 := by decide
example : extract_depth ("a#b-xyz".data) = 1 := by decide
example : extract_depth ("a-0".data) = 0 := by decide
example : strip_suffix ([] : List Char) = [] := by decide
example : matchIndex [mkTocEntry ("x-1".data) ("T".data)] ("x".data) = some 0 := by decide
example : heading_needed tocA hsA = {0, 1} := by decide
example : (assign_highlights tocA hsA).1 1 = [hlA] := by decide
example : (assign_highlights tocA hsA).2 = [] := by decide
example : rustLines ("a\r\nb\nc".data) = ["a".data, "b".data, "c".data] := by decide
example : rustLines ("a\n".data) = ["a".data] := by decide
example : rustLines ([] : List Char) = [] := by decide
example : format_highlight ⟨"t".data, none, [], some []⟩ = "> t\n\n**\n".data := by decide

theorem lastDashSplit_of_not_mem (cs : List Char) (h : '-' ∉ cs) :
    lastDashSplit cs = none := by
  induction cs with
  | nil => rfl
  | cons c rest ih =>
    have hc : ¬ c = '-' := fun hc => h (hc ▸ List.mem_cons_self c rest)
    have hr : '-' ∉ rest := fun hm => h (List.mem_cons_of_mem c hm)
    simp [lastDashSplit, ih hr, hc]

theorem not_mem_of_lastDashSplit_none (cs : List Char)
    (h : lastDashSplit cs = none) : '-' ∉ cs := by
  induction cs with
  | nil => simp
  | cons c rest ih =>
    rw [lastDashSplit] at h
    cases hr : lastDashSplit rest with
    | some p => rw [hr] at h; simp at h
    | none =>
      rw [hr] at h
      by_cases hc : c = '-'
      · simp [hc] at h
      · intro hm
        rcases List.mem_cons.mp hm with h1 | h2
        · exact hc h1.symm
        · exact ih hr h2

theorem lastDashSplit_eq_some (cs b a : List Char)
    (h : lastDashSplit cs = some (b, a)) : cs = b ++ '-' :: a ∧ '-' ∉ a := by
  induction cs generalizing b a with
  | nil => simp [lastDashSplit] at h
  | cons c rest ih =>
    rw [lastDashSplit] at h
    cases hr : lastDashSplit rest with
    | some p =>
      obtain ⟨b1, a1⟩ := p
      rw [hr] at h
      simp only [Option.some.injEq, Prod.mk.injEq] at h
      obtain ⟨hb, ha⟩ := h
      obtain ⟨h1, h2⟩ := ih b1 a1 hr
      subst hb; subst ha
      exact ⟨by rw [h1]; rfl, h2⟩
    | none =>
      rw [hr] at h
      by_cases hc : c = '-'
      · rw [if_pos hc] at h
        simp only [Option.some.injEq, Prod.mk.injEq] at h
        obtain ⟨hb, ha⟩ := h
        subst hb; subst ha
        exact ⟨by rw [hc]; rfl, not_mem_of_lastDashSplit_none _ hr⟩
      · rw [if_neg hc] at h
        cases h

theorem lastDashSplit_append (b a : List Char) (ha : '-' ∉ a) :
    lastDashSplit (b ++ '-' :: a) = some (b, a) := by
  induction b with
  | nil => simp [lastDashSplit, lastDashSplit_of_not_mem a ha]
  | cons c b ih => simp [lastDashSplit, ih]

theorem dash_not_mem_of_all_digits (d : List Char)
    (hdig : d.all Char.isDigit = true) : '-' ∉ d := by
  intro hm
  have h := List.all_eq_true.mp hdig _ hm
  exact absurd h (by decide)

theorem strip_suffix_digit_suffix (p d : List Char) (hd : d ≠ [])
    (hdig : d.all Char.isDigit = true) : strip_suffix (p ++ '-' :: d) = p := by
  rw [strip_suffix, lastDashSplit_append p d (dash_not_mem_of_all_digits d hdig)]
  simp [hd, hdig]

theorem extract_depth_digit_suffix (p d : List Char) (hd : d ≠ [])
    (hdig : d.all Char.isDigit = true) :
    extract_depth (p ++ '-' :: d) = (parseU32 d).getD 1 := by
  rw [extract_depth, lastDashSplit_append p d (dash_not_mem_of_all_digits d hdig)]
  simp [hd, hdig]

theorem parseU32_in_range (d : List Char) (hd : d ≠ [])
    (hdig : d.all Char.isDigit = true) (hle : digitsToNat d ≤ 4294967295) :
    parseU32 d = some (digitsToNat d) := by
  rw [parseU32, if_pos ⟨hd, hdig, hle⟩]

theorem parseU32_overflow (d : List Char) (hover : 4294967295 < digitsToNat d) :
    parseU32 d = none := by
  rw [parseU32, if_neg]
  intro hcond
  exact absurd hcond.2.2 (by omega)

theorem strip_extract_no_suffix (cs : List Char)
    (hns : ∀ q e, e ≠ [] → e.all Char.isDigit = true → cs ≠ q ++ '-' :: e) :
    strip_suffix cs = cs ∧ extract_depth cs = 1 := by
  cases hls : lastDashSplit cs with
  | none => simp [strip_suffix, extract_depth, hls]
  | some p =>
    obtain ⟨b, a⟩ := p
    obtain ⟨hcs, _⟩ := lastDashSplit_eq_some cs b a hls
    by_cases h1 : a ≠ [] ∧ a.all Char.isDigit = true
    · exact absurd hcs (hns b a h1.1 h1.2)
    · constructor
      · rw [strip_suffix, hls]
        show (if a ≠ [] ∧ a.all Char.isDigit = true then b else cs) = cs
        rw [if_neg h1]
      · rw [extract_depth, hls]
        show (if a ≠ [] ∧ a.all Char.isDigit = true then (parseU32 a).getD 1 else 1) = 1
        rw [if_neg h1]

theorem buildFrom_apply (toc : List TocEntry) :
    ∀ (m : List Char → Option Nat) (i : Nat) (k : List Char),
      buildFrom m i toc k = (m k).elim (firstIdxFrom toc k i) some := by
  induction toc with
  | nil =>
    intro m i k
    cases h : m k <;> simp [buildFrom, h, firstIdxFrom]
  | cons e rest ih =>
    intro m i k
    rw [buildFrom, ih, firstIdxFrom]
    by_cases hk : k = e.match_id
    · subst hk
      cases hm : m e.match_id with
      | some v => simp [orInsert, hm]
      | none => simp [orInsert, hm]
    · have hk2 : ¬ e.match_id = k := fun h => hk h.symm
      cases hm : m k with
      | some v => simp [orInsert, hm, hk, hk2]
      | none => simp [orInsert, hm, hk, hk2]

theorem matchIndex_eq_firstIdx (toc : List TocEntry) (k : List Char) :
    matchIndex toc k = firstIdx toc k := by
  rw [matchIndex, buildFrom_apply, firstIdx]
  rfl

theorem firstIdxFrom_shift (toc : List TocEntry) (k : List Char) :
    ∀ n, firstIdxFrom toc k n = (firstIdxFrom toc k 0).map (· + n) := by
  induction toc with
  | nil => intro n; simp [firstIdxFrom]
  | cons e rest ih =>
    intro n
    rw [firstIdxFrom, firstIdxFrom]
    by_cases hk : e.match_id = k
    · simp [hk]
    · rw [if_neg hk, if_neg hk, ih (n + 1), ih 1, Option.map_map]
      cases firstIdxFrom rest k 0 <;> simp
      omega

theorem firstIdx_cons (e : TocEntry) (rest : List TocEntry) (k : List Char) :
    firstIdx (e :: rest) k =
      if e.match_id = k then some 0 else (firstIdx rest k).map (· + 1) := by
  rw [firstIdx, firstIdxFrom]
  by_cases hk : e.match_id = k
  · simp [hk]
  · rw [if_neg hk, if_neg hk, firstIdxFrom_shift, firstIdx]

theorem firstIdx_sound (toc : List TocEntry) (k : List Char) :
    ∀ j, firstIdx toc k = some j →
      ∃ e, toc.get? j = some e ∧ e.match_id = k ∧
        ∀ m em, m < j → toc.get? m = some em → em.match_id ≠ k := by
  induction toc with
  | nil => intro j h; rw [firstIdx, firstIdxFrom] at h; cases h
  | cons e rest ih =>
    intro j h
    rw [firstIdx_cons] at h
    by_cases hk : e.match_id = k
    · rw [if_pos hk] at h
      obtain rfl : 0 = j := Option.some.inj h
      exact ⟨e, rfl, hk, fun m em hm _ => absurd hm (Nat.not_lt_zero m)⟩
    · rw [if_neg hk] at h
      cases hF : firstIdx rest k with
      | none => rw [hF] at h; cases h
      | some j0 =>
        rw [hF] at h
        obtain rfl : j0 + 1 = j := Option.some.inj h
        obtain ⟨e0, hget, hkey, hmin⟩ := ih j0 hF
        refine ⟨e0, by simpa using hget, hkey, ?_⟩
        intro m em hm hgm
        cases m with
        | zero =>
          have he : e = em := by simpa using hgm
          subst he
          exact hk
        | succ m1 =>
          exact hmin m1 em (Nat.lt_of_succ_lt_succ hm) (by simpa using hgm)

theorem firstIdx_complete (toc : List TocEntry) (k : List Char) :
    ∀ i e, toc.get? i = some e → e.match_id = k →
      ∃ j, j ≤ i ∧ firstIdx toc k = some j := by
  induction toc with
  | nil => intro i e h; simp at h
  | cons f rest ih =>
    intro i e hget hk
    by_cases hf : f.match_id = k
    · exact ⟨0, Nat.zero_le i, by rw [firstIdx_cons, if_pos hf]⟩
    · cases i with
      | zero =>
        have : f = e := by simpa using hget
        subst this
        exact absurd hk hf
      | succ i1 =>
        obtain ⟨j1, hj1, hF⟩ := ih i1 e (by simpa using hget) hk
        exact ⟨j1 + 1, Nat.succ_le_succ hj1, by rw [firstIdx_cons, if_neg hf, hF]; rfl⟩

theorem firstIdx_lt_length (toc : List TocEntry) (k : List Char) (j : Nat)
    (h : firstIdx toc k = some j) : j < toc.length := by
  obtain ⟨e, hget, -, -⟩ := firstIdx_sound toc k j h
  exact List.get?_eq_some.mp hget |>.1

theorem matchIndex_lt_length (toc : List TocEntry) (k : List Char) (j : Nat)
    (h : matchIndex toc k = some j) : j < toc.length := by
  rw [matchIndex_eq_firstIdx] at h
  exact firstIdx_lt_length toc k j h

theorem assignGo_snd (idx : List Char → Option Nat) :
    ∀ (hs : List Highlight) (a : Nat → List Highlight) (u : List Highlight),
      (assignGo idx a u hs).2 =
        u ++ hs.filter fun h => (idx h.chapter_content_id).isNone := by
  intro hs
  induction hs with
  | nil => intro a u; simp [assignGo]
  | cons h rest ih =>
    intro a u
    cases hi : idx h.chapter_content_id with
    | some i => simp [assignGo, hi, ih, List.filter_cons]
    | none => simp [assignGo, hi, ih, List.filter_cons]

theorem assignGo_fst (idx : List Char → Option Nat) :
    ∀ (hs : List Highlight) (a : Nat → List Highlight) (u : List Highlight) (j : Nat),
      (assignGo idx a u hs).1 j =
        a j ++ hs.filter fun h => decide (idx h.chapter_content_id = some j) := by
  intro hs
  induction hs with
  | nil => intro a u j; simp [assignGo]
  | cons h rest ih =>
    intro a u j
    cases hi : idx h.chapter_content_id with
    | some i =>
      rw [show assignGo idx a u (h :: rest)
            = assignGo idx (fun j => if j = i then a j ++ [h] else a j) u rest by
          simp [assignGo, hi]]
      rw [ih]
      by_cases hji : j = i
      · subst hji
        simp [hi, List.filter_cons]
      · simp [hi, hji, List.filter_cons, Ne.symm hji]
    | none =>
      rw [show assignGo idx a u (h :: rest) = assignGo idx a (u ++ [h]) rest by
          simp [assignGo, hi]]
      rw [ih]
      simp [hi, List.filter_cons]

theorem assign_fst (toc : List TocEntry) (hs : List Highlight) (j : Nat) :
    (assign_highlights toc hs).1 j =
      hs.filter fun h => decide (matchIndex toc h.chapter_content_id = some j) := by
  rw [assign_highlights, assignGo_fst]
  rfl

theorem assign_snd (toc : List TocEntry) (hs : List Highlight) :
    (assign_highlights toc hs).2 =
      hs.filter fun h => (matchIndex toc h.chapter_content_id).isNone := by
  rw [assign_highlights, assignGo_snd]
  rfl

theorem specWalk_zero_need (toc : List TocEntry) : ∀ n, specWalk toc n 0 = ∅ := by
  intro n
  induction n with
  | zero => rfl
  | succ n ih => rw [specWalk, if_neg (Nat.not_lt_zero _), ih]

theorem walkBack_eq_specWalk (toc : List TocEntry) :
    ∀ n need, walkBack toc n need = specWalk toc n need := by
  intro n
  induction n with
  | zero => intro need; rfl
  | succ n ih =>
    intro need
    rw [walkBack, specWalk]
    by_cases h1 : depthAt toc n < need
    · rw [if_pos h1, if_pos h1]
      by_cases h2 : depthAt toc n = 1
      · rw [if_pos (by omega), if_pos h2]
      · by_cases h3 : depthAt toc n ≤ 1
        · have h0 : depthAt toc n = 0 := by omega
          rw [if_pos h3, if_neg h2, h0, specWalk_zero_need]
          rfl
        · rw [if_neg h3, if_neg h2, ih]
    · rw [if_neg h1, if_neg h1, ih]

theorem mem_walkBack_lt (toc : List TocEntry) :
    ∀ n need j, j ∈ walkBack toc n need → j < n := by
  intro n
  induction n with
  | zero => intro need j h; simp [walkBack] at h
  | succ n ih =>
    intro need j h
    rw [walkBack] at h
    by_cases h1 : depthAt toc n < need
    · rw [if_pos h1] at h
      by_cases h2 : depthAt toc n ≤ 1
      · rw [if_pos h2] at h
        have : j = n := Finset.mem_singleton.mp h
        omega
      · rw [if_neg h2] at h
        rcases Finset.mem_insert.mp h with rfl | hm
        · omega
        · exact Nat.lt_succ_of_lt (ih _ j hm)
    · rw [if_neg h1] at h
      exact Nat.lt_succ_of_lt (ih _ j h)

theorem takeWhile_hash_run (n : Nat) (rest : List Char) :
    ((List.replicate n '#' ++ ' ' :: rest).takeWhile fun c => c == '#').length = n := by
  induction n with
  | zero => simp [List.takeWhile_cons]
  | succ n ih => simp [List.replicate_succ, List.takeWhile_cons, ih]

theorem occursIn_flatten_map {α : Type} (f : α → List Char) (l : List α) (x : α)
    (hx : x ∈ l) : occursIn (f x) (List.flatten (l.map f)) := by
  induction l with
  | nil => cases hx
  | cons y rest ih =>
    rcases List.mem_cons.mp hx with rfl | hm
    · exact ⟨[], List.flatten (rest.map f), by simp⟩
    · obtain ⟨s, t, h⟩ := ih hm
      exact ⟨f y ++ s, t, by simp [h, List.append_assoc]⟩

theorem occursIn_extend (x m left right : List Char) (h : occursIn x m) :
    occursIn x (left ++ m ++ right) := by
  obtain ⟨s, t, rfl⟩ := h
  exact ⟨left ++ s, t ++ right, by simp [List.append_assoc]⟩

theorem extract_depth_digit_cases (cs b a : List Char)
    (hls : lastDashSplit cs = some (b, a)) (ha : a ≠ [])
    (hdig : a.all Char.isDigit = true) :
    extract_depth cs = (parseU32 a).getD 1 := by
  rw [extract_depth, hls]
  show (if a ≠ [] ∧ a.all Char.isDigit = true then (parseU32 a).getD 1 else 1) = _
  rw [if_pos ⟨ha, hdig⟩]

theorem one_le_extract_depth (cs : List Char) (hz : zeroDigitSuffix cs = false) :
    1 ≤ extract_depth cs := by
  cases hls : lastDashSplit cs with
  | none =>
    rw [extract_depth, hls]
  | some p =>
    obtain ⟨b, a⟩ := p
    by_cases hcond : a ≠ [] ∧ a.all Char.isDigit = true
    · rw [extract_depth_digit_cases cs b a hls hcond.1 hcond.2]
      simp only [zeroDigitSuffix, hls] at hz
      have hz0 : digitsToNat a ≠ 0 := by
        intro h0
        have hemp : a.isEmpty = false := by
          cases a
          · exact absurd rfl hcond.1
          · rfl
        rw [hemp, hcond.2, h0] at hz
        simp at hz
      rw [parseU32]
      by_cases hle : digitsToNat a ≤ 4294967295
      · rw [if_pos ⟨hcond.1, hcond.2, hle⟩]
        simpa using Nat.one_le_iff_ne_zero.mpr hz0
      · rw [if_neg fun hc => hle hc.2.2]
        simp
    · rw [extract_depth, hls]
      show 1 ≤ (if a ≠ [] ∧ a.all Char.isDigit = true then (parseU32 a).getD 1 else 1)
      rw [if_neg hcond]

/-- Claim C4, as written, fails on u32 overflow: the identifier
`"a-4294967296"` has the form prefix-digits, but `extract_depth` does not
return the numeric value 4294967296 of the digits — the `u32` parse fails and
the depth falls back to 1. -/
theorem C4_counterexample :
    "a-4294967296".data = "a".data ++ '-' :: "4294967296".data ∧
    digitsToNat ("4294967296".data) = 4294967296 ∧
    extract_depth ("a-4294967296".data) = 1 ∧ (1 : Nat) ≠ 4294967296 := by
  refine ⟨by decide, by decide, by decide, by omega⟩

/-- Claim C4 (amended): for every identifier of the form prefix-dash-digits,
`strip_suffix` returns the prefix, and `extract_depth` returns the numeric
value of the digits provided that value fits in 32 unsigned bits (otherwise
it falls back to 1); for every identifier that admits no decomposition with a
digit-only trailing suffix, `strip_suffix` returns it unchanged and
`extract_depth` returns 1. -/
theorem C4_identifier_normalization (p d cs : List Char)
    (hd : d ≠ []) (hdig : d.all Char.isDigit = true)
    (hns : ∀ q e, e ≠ [] → e.all Char.isDigit = true → cs ≠ q ++ '-' :: e) :
    strip_suffix (p ++ '-' :: d) = p ∧
    (digitsToNat d ≤ 4294967295 → extract_depth (p ++ '-' :: d) = digitsToNat d) ∧
    strip_suffix cs = cs ∧ extract_depth cs = 1 := by
  refine ⟨strip_suffix_digit_suffix p d hd hdig, ?_, strip_extract_no_suffix cs hns⟩
  intro hle
  rw [extract_depth_digit_suffix p d hd hdig, parseU32_in_range d hd hdig hle]
  rfl

/-- Concrete instance of the amended C4: the suffixed identifier `"a#b-2"`
and the suffix-free identifier `"ab"`. -/
theorem C4_identifier_normalization_witness :
    strip_suffix ("a#b-2".data) = "a#b".data ∧
    extract_depth ("a#b-2".data) = 2 ∧
    strip_suffix ("ab".data) = "ab".data ∧ extract_depth ("ab".data) = 1 := by
  have heq : "a#b-2".data = "a#b".data ++ '-' :: "2".data := by decide
  have hns : ∀ q e, e ≠ [] → e.all Char.isDigit = true → "ab".data ≠ q ++ '-' :: e := by
    intro q e _ _ hcontra
    have hmem : '-' ∈ "ab".data := by rw [hcontra]; simp
    exact absurd hmem (by decide)
  have h := C4_identifier_normalization ("a#b".data) ("2".data) ("ab".data)
    (by decide) (by decide) hns
  refine ⟨by rw [heq]; exact h.1, ?_, h.2.2.1, h.2.2.2⟩
  rw [heq, h.2.1 (by decide)]
  decide

/-- Claim C5, as written, fails on a zero digit suffix: the identifier
`"a-0"` produces a `TocEntry` of depth 0, below the claimed minimum of 1. -/
theorem C5_counterexample :
    ∃ e, e ∈ query_toc [("a-0".data, "t".data)] ∧ e.depth = 0 :=
  ⟨mkTocEntry ("a-0".data) ("t".data), by decide, by decide⟩

/-- Claim C5 (amended): every `TocEntry` produced by `query_toc` has depth at
least 1, provided no row's identifier ends in an all-digit dash suffix of
numeric value zero (such a suffix yields depth 0; depths are `Nat`, so they
are never negative). -/
theorem C5_toc_depth_positive (rows : List (List Char × List Char)) (e : TocEntry)
    (he : e ∈ query_toc rows)
    (hz : ∀ r ∈ rows, zeroDigitSuffix r.1 = false) :
    1 ≤ e.depth := by
  rw [query_toc, List.mem_map] at he
  obtain ⟨r, hr, rfl⟩ := he
  exact one_le_extract_depth r.1 (hz r hr)

/-- Concrete instance of the amended C5. -/
theorem C5_toc_depth_positive_witness :
    (mkTocEntry ("a-2".data) ("t".data) ∈ query_toc [("a-2".data, "t".data)] ∧
      ∀ r ∈ [(("a-2").data, ("t").data)], zeroDigitSuffix r.1 = false) ∧
    1 ≤ (mkTocEntry ("a-2".data) ("t".data)).depth :=
  ⟨⟨by decide, by decide⟩,
    C5_toc_depth_positive [("a-2".data, "t".data)] _ (by decide) (by decide)⟩

/-- Claim C10: when the trailing digit run's value exceeds the 32-bit
unsigned maximum, `extract_depth` falls back to the default 1 while
`strip_suffix` still removes the suffix. -/
theorem C10_overflow_depth (p d : List Char) (hd : d ≠ [])
    (hdig : d.all Char.isDigit = true) (hover : 4294967295 < digitsToNat d) :
    extract_depth (p ++ '-' :: d) = 1 ∧ strip_suffix (p ++ '-' :: d) = p := by
  constructor
  · rw [extract_depth_digit_suffix p d hd hdig, parseU32_overflow d hover]
    rfl
  · exact strip_suffix_digit_suffix p d hd hdig

/-- Concrete instance of C10 at the first value past the u32 maximum. -/
theorem C10_overflow_depth_witness :
    ("4294967296".data ≠ [] ∧ ("4294967296".data).all Char.isDigit = true ∧
      4294967295 < digitsToNat ("4294967296".data)) ∧
    extract_depth ("a-4294967296".data) = 1 ∧
    strip_suffix ("a-4294967296".data) = "a".data := by
  have heq : "a-4294967296".data = "a".data ++ '-' :: "4294967296".data := by decide
  refine ⟨⟨by decide, by decide, by decide⟩, ?_, ?_⟩
  · rw [heq]
    exact (C10_overflow_depth ("a".data) ("4294967296".data)
      (by decide) (by decide) (by decide)).1
  · rw [heq]
    exact (C10_overflow_depth ("a".data) ("4294967296".data)
      (by decide) (by decide) (by decide)).2

theorem filter_bucket_count (toc : List TocEntry) (hs : List Highlight) :
    ((Finset.range toc.length).sum fun j =>
        (hs.filter fun x => decide (matchIndex toc x.chapter_content_id = some j)).length)
      + (hs.filter fun x => (matchIndex toc x.chapter_content_id).isNone).length
      = hs.length := by
  induction hs with
  | nil => simp
  | cons h rest ih =>
    cases hidx : matchIndex toc h.chapter_content_id with
    | none =>
      have hb : ∀ j : Nat,
          ((h :: rest).filter fun x =>
              decide (matchIndex toc x.chapter_content_id = some j))
            = rest.filter fun x =>
              decide (matchIndex toc x.chapter_content_id = some j) := by
        intro j
        rw [List.filter_cons]
        simp [hidx]
      rw [Finset.sum_congr rfl fun j _ => congrArg List.length (hb j)]
      rw [List.filter_cons]
      simp only [hidx, Option.isNone_none, if_pos, List.length_cons]
      omega
    | some k =>
      have hk : k < toc.length := matchIndex_lt_length toc _ k hidx
      have hbj : ∀ j : Nat,
          ((h :: rest).filter fun x =>
              decide (matchIndex toc x.chapter_content_id = some j)).length
            = (rest.filter fun x =>
                decide (matchIndex toc x.chapter_content_id = some j)).length
              + (if j = k then 1 else 0) := by
        intro j
        rw [List.filter_cons]
        by_cases hjk : j = k
        · subst hjk
          simp [hidx]
        · have hfalse : decide (matchIndex toc h.chapter_content_id = some j) = false := by
            simp [hidx]
            exact Ne.symm hjk
          simp [hfalse, hjk]
      rw [Finset.sum_congr rfl fun j _ => hbj j, Finset.sum_add_distrib,
        Finset.sum_ite_eq' (Finset.range toc.length) k fun _ => 1,
        if_pos (Finset.mem_range.mpr hk), List.filter_cons]
      have hun : ((matchIndex toc h.chapter_content_id).isNone : Bool) = false := by
        rw [hidx]
        rfl
      rw [hun]
      simp only [Bool.false_eq_true, if_false, List.length_cons]
      omega

/-- Claim C2: `assign_highlights` places every input highlight in exactly one
place.  Each bucket and the uncategorized list are the order-preserving
sublists of the input selected by the match-index lookup (so nothing is
dropped or duplicated and arrival order is preserved), and the bucket sizes
plus the uncategorized length add up to the input length. -/
theorem C2_assignment_totality (toc : List TocEntry) (hs : List Highlight) :
    (∀ j : Nat, (assign_highlights toc hs).1 j =
        hs.filter fun x => decide (matchIndex toc x.chapter_content_id = some j)) ∧
    ((assign_highlights toc hs).2 =
        hs.filter fun x => (matchIndex toc x.chapter_content_id).isNone) ∧
    ((Finset.range toc.length).sum fun j => ((assign_highlights toc hs).1 j).length)
      + ((assign_highlights toc hs).2).length = hs.length := by
  refine ⟨assign_fst toc hs, assign_snd toc hs, ?_⟩
  rw [Finset.sum_congr rfl fun j _ => congrArg List.length (assign_fst toc hs j),
    assign_snd]
  exact filter_bucket_count toc hs

/-- Claim C3: when two TOC entries share a match key, a highlight carrying
that key binds to the first occurrence in display order.  The later
duplicate's bucket is always empty, and every matching highlight lands in the
bucket of the first position carrying the key, which lies at or before the
earlier duplicate. -/
theorem C3_first_write_wins (toc : List TocEntry) (hs : List Highlight)
    (i j : Nat) (ei ej : TocEntry) (hij : i < j)
    (hi : toc.get? i = some ei) (hj : toc.get? j = some ej)
    (hdup : ei.match_id = ej.match_id) :
    (assign_highlights toc hs).1 j = [] ∧
    ∃ k, k ≤ i ∧ matchIndex toc ej.match_id = some k ∧
      (∃ ek, toc.get? k = some ek ∧ ek.match_id = ej.match_id) ∧
      ∀ h ∈ hs, h.chapter_content_id = ej.match_id →
        h ∈ (assign_highlights toc hs).1 k := by
  obtain ⟨k, hki, hF⟩ := firstIdx_complete toc ej.match_id i ei hi hdup
  have hMI : matchIndex toc ej.match_id = some k := by
    rw [matchIndex_eq_firstIdx]
    exact hF
  obtain ⟨ek, hgetk, hkeyk, hmink⟩ := firstIdx_sound toc ej.match_id k hF
  constructor
  · rw [assign_fst, List.filter_eq_nil_iff]
    intro h hmem
    simp only [decide_eq_true_eq]
    intro hsome
    rw [matchIndex_eq_firstIdx] at hsome
    obtain ⟨e2, hget2, hkey2, hmin2⟩ := firstIdx_sound toc _ j hsome
    have he2 : ej = e2 := by
      rw [hj] at hget2
      exact Option.some.inj hget2
    refine hmin2 i ei hij hi ?_
    rw [hdup, he2, hkey2]
  · refine ⟨k, hki, hMI, ⟨ek, hgetk, hkeyk⟩, ?_⟩
    intro h hmem hkey
    rw [assign_fst, List.mem_filter]
    refine ⟨hmem, ?_⟩
    simp [hkey, hMI]

/-- Sample TOC with a duplicated match key. -/
def tocDup : List TocEntry :=
  [⟨"A".data, "k".data, 1⟩, ⟨"B".data, "k".data, 1⟩]

/-- Sample highlight whose location key is the duplicated key of `tocDup`. -/
def hlDup : Highlight := ⟨"t".data, none, "k".data, none⟩

/-- Concrete instance of C3 on a TOC whose two entries share a match key. -/
theorem C3_first_write_wins_witness :
    (assign_highlights tocDup [hlDup]).1 1 = [] ∧
    matchIndex tocDup ("k".data) = some 0 ∧
    hlDup ∈ (assign_highlights tocDup [hlDup]).1 0 := by
  have h := C3_first_write_wins tocDup [hlDup] 0 1
    ⟨"A".data, "k".data, 1⟩ ⟨"B".data, "k".data, 1⟩
    (by omega) (by decide) (by decide) (by decide)
  obtain ⟨h1, k, hk0, hMI, -, hmem⟩ := h
  have hk : k = 0 := Nat.le_zero.mp hk0
  subst hk
  exact ⟨h1, hMI, hmem hlDup (by decide) (by decide)⟩

/-- Claim C1: the closure set computed before rendering equals, over all
positions with a non-empty bucket, the position itself together with exactly
the positions found by the spec's backward walk; the walk only contributes
positions strictly before the start node, and every directly assigned
position is itself in the closure. -/
theorem C1_ancestor_closure (toc : List TocEntry) (hs : List Highlight) :
    (heading_needed toc hs =
      (Finset.range toc.length).biUnion fun i =>
        if (assign_highlights toc hs).1 i = [] then ∅
        else insert i (specWalk toc i (depthAt toc i))) ∧
    (∀ i need j, j ∈ walkBack toc i need → j < i) ∧
    (∀ i, i < toc.length → (assign_highlights toc hs).1 i ≠ [] →
      i ∈ heading_needed toc hs) := by
  refine ⟨?_, mem_walkBack_lt toc, ?_⟩
  · rw [heading_needed]
    refine Finset.biUnion_congr rfl fun i _ => ?_
    rw [walkBack_eq_specWalk]
  · intro i hi hne
    rw [heading_needed, Finset.mem_biUnion]
    refine ⟨i, Finset.mem_range.mpr hi, ?_⟩
    rw [if_neg hne]
    exact Finset.mem_insert_self _ _

/-- Concrete instance of C1: in `tocA` the section at position 1 carries the
only highlight; the walk from it finds the chapter at position 0, and
position 1 itself is in the closure. -/
theorem C1_ancestor_closure_witness :
    (0 ∈ walkBack tocA 1 2 ∧ 0 < 1) ∧
    ((assign_highlights tocA hsA).1 1 ≠ [] ∧ 1 ∈ heading_needed tocA hsA) := by
  have h := C1_ancestor_closure tocA hsA
  exact ⟨⟨by decide, h.2.1 1 2 0 (by decide)⟩,
    ⟨by decide, h.2.2 1 (by decide) (by decide)⟩⟩

theorem entryBlock_pos (toc : List TocEntry) (asg : Nat → List Highlight)
    (contains : Nat → Bool) (i : Nat) (e : TocEntry) (hi : toc.get? i = some e)
    (hc : contains i = true) (ht : e.title ≠ []) :
    entryBlock toc asg contains i
      = List.replicate ((e.depth + 1) % 4294967296) '#'
          ++ ' ' :: (e.title ++ "\n\n".data
            ++ List.flatten ((asg i).map fun h => format_highlight h ++ "\n".data)) := by
  rw [entryBlock, hi]
  show (if contains i = true ∧ e.title ≠ [] then
      List.replicate ((e.depth + 1) % 4294967296) '#'
        ++ ' ' :: (e.title ++ "\n\n".data
          ++ List.flatten ((asg i).map fun h => format_highlight h ++ "\n".data))
    else []) = _
  rw [if_pos ⟨hc, ht⟩]

theorem entryBlock_empty_title (toc : List TocEntry) (asg : Nat → List Highlight)
    (contains : Nat → Bool) (i : Nat) (e : TocEntry) (hi : toc.get? i = some e)
    (ht : e.title = []) : entryBlock toc asg contains i = [] := by
  rw [entryBlock, hi]
  show (if contains i = true ∧ e.title ≠ [] then
      List.replicate ((e.depth + 1) % 4294967296) '#'
        ++ ' ' :: (e.title ++ "\n\n".data
          ++ List.flatten ((asg i).map fun h => format_highlight h ++ "\n".data))
    else []) = []
  rw [if_neg fun hcon => hcon.2 ht]

/-- Claim C6: for every closure-set node with a non-empty title, the walk
emits its heading block into the rendered document (in display order, as the
block at position `i` of the joined walk output), and — provided depth + 1
fits in `u32`, since the source performs that addition on `u32` — the
heading's leading hash run has length depth + 1: level 1 maps to weight 2 and
so on, weight 1 being used by `headerPart` for the document title alone.  At
the reachable depth 4294967295 the addition wraps to 0 (see the
counterexample). -/
theorem C6_heading_weight (book : Book) (toc : List TocEntry) (hs : List Highlight)
    (i : Nat) (e : TocEntry) (hi : toc.get? i = some e)
    (hm : i ∈ heading_needed toc hs) (ht : e.title ≠ [])
    (hfit : e.depth + 1 < 4294967296) :
    ((entryBlock toc (assign_highlights toc hs).1 (closureContains toc hs) i).takeWhile
        fun c => c == '#').length = e.depth + 1 ∧
    occursIn (entryBlock toc (assign_highlights toc hs).1 (closureContains toc hs) i)
      (generate_markdown book toc hs) := by
  have hcb : closureContains toc hs i = true := by
    rw [closureContains]
    exact decide_eq_true hm
  constructor
  · rw [entryBlock_pos toc _ _ i e hi hcb ht, Nat.mod_eq_of_lt hfit]
    exact takeWhile_hash_run (e.depth + 1) _
  · rw [generate_markdown, generate_markdown_core]
    have hilen : i < toc.length := (List.get?_eq_some.mp hi).1
    exact occursIn_extend _ _ _ _
      (occursIn_flatten_map
        (entryBlock toc (assign_highlights toc hs).1 (closureContains toc hs))
        (List.range toc.length) i (List.mem_range.mpr hilen))

/-- Concrete instance of C6 at position 0 of `tocA` (a level-1 ancestor pulled
in by the closure): its heading carries 2 hash marks and occurs in the
document. -/
theorem C6_heading_weight_witness :
    (tocA.get? 0 = some entA ∧ 0 ∈ heading_needed tocA hsA ∧ entA.title ≠ [] ∧
      entA.depth + 1 < 4294967296) ∧
    ((entryBlock tocA (assign_highlights tocA hsA).1 (closureContains tocA hsA) 0).takeWhile
        fun c => c == '#').length = entA.depth + 1 ∧
    occursIn (entryBlock tocA (assign_highlights tocA hsA).1 (closureContains tocA hsA) 0)
      (generate_markdown bookA tocA hsA) := by
  refine ⟨⟨by decide, by decide, by decide, by decide⟩, ?_⟩
  exact C6_heading_weight bookA tocA hsA 0 entA (by decide) (by decide) (by decide)
    (by decide)

/-- Sample TOC whose single entry carries the maximal u32 depth, built from a
raw identifier to show the depth is reachable. -/
def tocOv : List TocEntry := [mkTocEntry ("x-4294967295".data) ("T".data)]

/-- Sample highlight matching the entry of `tocOv`. -/
def hlOv : Highlight := ⟨"t".data, none, "x".data, none⟩

/-- Claim C6, as written, fails at the reachable depth 4294967295 (from the
identifier `"x-4294967295"`): the source computes `entry.depth + 1` on `u32`,
which wraps to 0, so this closure node with a non-empty title emits a heading
line with no hash marks at all instead of one of weight depth + 1. -/
theorem C6_counterexample :
    (mkTocEntry ("x-4294967295".data) ("T".data)).depth = 4294967295 ∧
    0 ∈ heading_needed tocOv [hlOv] ∧
    (mkTocEntry ("x-4294967295".data) ("T".data)).title ≠ [] ∧
    ((entryBlock tocOv (assign_highlights tocOv [hlOv]).1
        (closureContains tocOv [hlOv]) 0).takeWhile fun c => c == '#').length = 0 ∧
    (0 : Nat) ≠ 4294967295 + 1 := by
  refine ⟨by decide, by decide, by decide, by decide, by omega⟩

/-- Claim C7, as written, fails for an empty-but-present creation date: the
code guards the note and the author with an emptiness check but not the date,
so a highlight whose `date_created` is the empty string still emits an empty
italicized line (`**`) instead of nothing. -/
theorem C7_counterexample :
    format_highlight ⟨"t".data, none, [], some []⟩ = "> t\n\n**\n".data ∧
    format_highlight ⟨"t".data, none, [], some []⟩
      ≠ format_highlight ⟨"t".data, none, [], none⟩ :=
  ⟨by decide, by decide⟩

/-- Claim C7 (amended): rendering is total by construction (all the modelled
functions are total), an absent or empty note produces no note output, and an
absent or empty author produces no author line — the document equals the one
rendered with the field absent.  An absent creation date likewise emits
nothing, but an empty-but-present creation date still emits its italic
wrapper (see the counterexample). -/
theorem C7_degrade_to_omission (book : Book) (toc : List TocEntry)
    (hs : List Highlight) (h : Highlight) :
    (h.annotation = none ∨ h.annotation = some [] →
      format_highlight h
        = format_highlight ⟨h.text, none, h.chapter_content_id, h.date_created⟩) ∧
    (book.author = none ∨ book.author = some [] →
      generate_markdown book toc hs
        = generate_markdown ⟨book.content_id, book.title, none⟩ toc hs) := by
  constructor
  · intro hann
    obtain ⟨tx, an, cid, dc⟩ := h
    simp only at hann
    rcases hann with h1 | h1 <;> subst h1 <;> simp [format_highlight]
  · intro hauth
    obtain ⟨bcid, btitle, bauthor⟩ := book
    simp only at hauth
    rcases hauth with h1 | h1 <;> subst h1 <;>
      simp [generate_markdown, generate_markdown_core, headerPart]

/-- Concrete instance of the amended C7: an empty note and an empty author
produce output identical to the absent-field rendering. -/
theorem C7_degrade_to_omission_witness :
    format_highlight ⟨"t".data, some [], [], none⟩
      = format_highlight ⟨"t".data, none, [], none⟩ ∧
    generate_markdown ⟨"b".data, "Book".data, some []⟩ tocA hsA
      = generate_markdown ⟨"b".data, "Book".data, none⟩ tocA hsA :=
  ⟨(C7_degrade_to_omission bookA tocA hsA ⟨"t".data, some [], [], none⟩).1 (Or.inr rfl),
    (C7_degrade_to_omission ⟨"b".data, "Book".data, some []⟩ tocA hsA hlA).2 (Or.inr rfl)⟩

/-- Claim C8: the rendered document is a pure function of the four inputs.
Any two closure-membership tests that agree with `heading_needed` — as the
hash-set states of any two invocations do, whatever their iteration order —
produce byte-identical documents, equal to the canonical rendering. -/
theorem C8_render_deterministic (book : Book) (toc : List TocEntry)
    (hs : List Highlight) (c1 c2 : Nat → Bool)
    (h1 : ∀ i, c1 i = true ↔ i ∈ heading_needed toc hs)
    (h2 : ∀ i, c2 i = true ↔ i ∈ heading_needed toc hs) :
    generate_markdown_core book toc hs c1 = generate_markdown_core book toc hs c2 ∧
    generate_markdown_core book toc hs c1 = generate_markdown book toc hs := by
  have hcc : ∀ c : Nat → Bool, (∀ i, c i = true ↔ i ∈ heading_needed toc hs) →
      c = closureContains toc hs := by
    intro c hc
    funext i
    rw [Bool.eq_iff_iff, hc i, closureContains]
    simp
  rw [hcc c1 h1, hcc c2 h2, generate_markdown]
  exact ⟨rfl, rfl⟩

/-- Concrete instance of C8 on the empty TOC, whose closure set is empty. -/
theorem C8_render_deterministic_witness :
    generate_markdown_core bookA ([] : List TocEntry) ([] : List Highlight)
        (fun _ => false)
      = generate_markdown bookA [] [] := by
  have hmem : ∀ i : Nat, (fun _ : Nat => false) i = true ↔ i ∈ heading_needed [] [] := by
    intro i
    simp [heading_needed]
  exact (C8_render_deterministic bookA [] [] (fun _ => false) (fun _ => false)
    hmem hmem).2

/-- Claim C9: a TOC entry with an empty title contributes nothing to the
rendered document even when it carries directly assigned highlights: its
block is empty, and those highlights appear in no other bucket and never in
the uncategorized list, so they are absent from the output entirely. -/
theorem C9_empty_title_drops_highlights (toc : List TocEntry) (hs : List Highlight)
    (i : Nat) (e : TocEntry) (hi : toc.get? i = some e) (ht : e.title = []) :
    entryBlock toc (assign_highlights toc hs).1 (closureContains toc hs) i = [] ∧
    ∀ h ∈ hs, matchIndex toc h.chapter_content_id = some i →
      h ∉ (assign_highlights toc hs).2 ∧
      ∀ j, j ≠ i → h ∉ (assign_highlights toc hs).1 j := by
  refine ⟨entryBlock_empty_title toc _ _ i e hi ht, ?_⟩
  intro h _ hsome
  constructor
  · rw [assign_snd]
    intro hcon
    have hp := (List.mem_filter.mp hcon).2
    rw [hsome] at hp
    cases hp
  · intro j hji
    rw [assign_fst]
    intro hcon
    have hp := (List.mem_filter.mp hcon).2
    rw [hsome] at hp
    simp only [decide_eq_true_eq, Option.some.injEq] at hp
    exact hji hp.symm

/-- Sample TOC consisting of one entry with an empty title. -/
def tocE : List TocEntry := [⟨[], "k".data, 1⟩]

/-- Sample highlight matching the empty-titled entry of `tocE`. -/
def hlE : Highlight := ⟨"t".data, none, "k".data, none⟩

/-- Concrete instance of C9: the highlight on the empty-titled entry leaves no
trace — empty block, not uncategorized, in no other bucket. -/
theorem C9_empty_title_drops_highlights_witness :
    entryBlock tocE (assign_highlights tocE [hlE]).1 (closureContains tocE [hlE]) 0 = [] ∧
    hlE ∉ (assign_highlights tocE [hlE]).2 ∧
    hlE ∉ (assign_highlights tocE [hlE]).1 5 := by
  have h := C9_empty_title_drops_highlights tocE [hlE] 0 ⟨[], "k".data, 1⟩
    (by decide) (by decide)
  have h2 := h.2 hlE (by decide) (by decide)
  exact ⟨h.1, h2.1, h2.2 5 (by decide)⟩
